import Mathlib

/-!
Verification of the NetaBako trending-topics pipeline.

The development shallowly embeds the scraping/merge core of the repository:
the `Topic` record, the feed-based adapter `fetchGoogleTrends`, the
markup-based adapter `fetchYahooRealtime`, and the merger `mergeAndRank`.
Go strings are modelled through their character lists; `strings.ToLower`,
`strings.TrimSpace`, `strings.Contains`, `strings.Join` and Go's byte-wise
string comparison are re-implemented over `List Char` so that every
definition evaluates by kernel reduction (UTF-8 byte order coincides with
code-point order, so code-point lexicographic comparison models Go's `<`).
Network I/O, the XML decoder, the DOM query and the regular-expression
search are library calls outside the repository; they enter the model as
oracle inputs (the decoded item list, the matched anchor list, and a
`String → String` function standing for `regexp.FindString`).
-/

namespace NetaBako

/-- Character comparison by code point; models Go byte comparison on UTF-8. -/
def charLtB (a b : Char) : Bool := a.toNat < b.toNat

/-- Lexicographic order on character lists; models Go `<` on strings. -/
def listLtB : List Char → List Char → Bool
  | [], [] => false
  | [], _ :: _ => true
  | _ :: _, [] => false
  | a :: as, b :: bs =>
    if a.toNat < b.toNat then true
    else if b.toNat < a.toNat then false
    else listLtB as bs

/-- Go `s < t` on strings. -/
def strLt (a b : String) : Bool := listLtB a.data b.data

/-- Go `strings.TrimSpace` (whitespace at both ends removed). -/
def strTrim (s : String) : String :=
  String.mk (((s.data.dropWhile Char.isWhitespace).reverse.dropWhile Char.isWhitespace).reverse)

/-- ASCII lower-casing of one character, as in `strings.ToLower` restricted
to the ASCII range handled by this embedding. -/
def lowerChar (c : Char) : Char :=
  if 65 ≤ c.toNat ∧ c.toNat ≤ 90 then Char.ofNat (c.toNat + 32) else c

/-- Go `strings.ToLower`. -/
def strToLower (s : String) : String := String.mk (s.data.map lowerChar)

/-- `sub` is a prefix of the second list. -/
def isPrefixB : List Char → List Char → Bool
  | [], _ => true
  | _ :: _, [] => false
  | a :: as, b :: bs => a == b && isPrefixB as bs

/-- `sub` occurs inside `hay`. -/
def infixB (sub : List Char) : List Char → Bool
  | [] => sub.isEmpty
  | c :: rest => isPrefixB sub (c :: rest) || infixB sub rest

/-- Go `strings.Contains s sub`. -/
def strContains (s sub : String) : Bool := infixB sub.data s.data

/-- Go `strings.Join parts sep`. -/
def joinSep (sep : String) : List String → String
  | [] => ""
  | [s] => s
  | s :: rest => s ++ sep ++ joinSep sep rest

/-- The merge / dedupe key: `strings.ToLower(strings.TrimSpace(title))`,
used identically in `fetchYahooRealtime` and in `mergeAndRank`. -/
def normKey (s : String) : String := strToLower (strTrim s)

/-- The common record of the pipeline (`type Topic struct` in the source).
`rank = 0` is the "absent" sentinel; both adapters only ever produce
positive ranks, matching the spec's data-model invariant. -/
structure Topic where
  source : String
  title : String
  note : String
  rank : Nat
  deriving DecidableEq

/-! ## Merger (`mergeAndRank`) -/

/-- The merge-time accumulator (`type Acc struct` inside `mergeAndRank`). -/
structure Acc where
  title : String
  note : List String
  score : Nat
  best : Topic
  deriving DecidableEq

/-- Accumulator created on first sight of a key:
`acc[key] = &Acc{Title: t.Title, Best: t}`. -/
def initAcc (t : Topic) : Acc := ⟨t.title, [], 0, t⟩

/-- The body of `add` after the entry exists: score bump (3 for the
yahoo source, 2 otherwise), note append when non-empty, and the
best-rank update `t.Rank > 0 && (Best.Rank == 0 || t.Rank < Best.Rank)`. -/
def applyAcc (a : Acc) (t : Topic) : Acc :=
  let a1 : Acc := { a with score := a.score + (if t.source = "yahoo" then 3 else 2) }
  let a2 : Acc := if t.note ≠ "" then { a1 with note := a1.note ++ [t.note] } else a1
  if 0 < t.rank ∧ (a2.best.rank = 0 ∨ t.rank < a2.best.rank) then { a2 with best := t } else a2

/-- Membership test for a key in the accumulator map
(`_, ok := acc[key]`); the Go map is modelled as an association list
in insertion order. -/
def hasKey : List (String × Acc) → String → Bool
  | [], _ => false
  | p :: rest, k => p.1 = k || hasKey rest k

/-- Lookup in the association list modelling the Go map. -/
def lookupAcc (k : String) : List (String × Acc) → Option Acc
  | [] => none
  | p :: rest => if p.1 = k then some p.2 else lookupAcc k rest

/-- In-place update of the entry stored at key `k`. -/
def updateKey (acc : List (String × Acc)) (k : String) (t : Topic) : List (String × Acc) :=
  acc.map (fun p => if p.1 = k then (p.1, applyAcc p.2 t) else p)

/-- The closure `add` of `mergeAndRank`: drop empty keys, create the
entry on first sight, then apply the score/note/best updates. -/
def addTopic (acc : List (String × Acc)) (t : Topic) : List (String × Acc) :=
  let k := normKey t.title
  if k = "" then acc
  else if hasKey acc k then updateKey acc k t
  else acc ++ [(k, applyAcc (initAcc t) t)]

/-- Folding both input lists into the accumulator
(`for _, t := range yahoo { add(t) }; for _, t := range google { add(t) }`). -/
def buildAcc (yahoo google : List Topic) : List (String × Acc) :=
  google.foldl addTopic (yahoo.foldl addTopic [])

/-- Emission of one merged record per accumulator entry. -/
def emitMerged (acc : List (String × Acc)) : List Topic :=
  acc.map (fun p => ⟨"mix", p.2.title, joinSep " / " p.2.note, p.2.best.rank⟩)

/-- The merged list before sorting, in accumulator insertion order
(one possible iteration order of the Go map). -/
def mergedTopics (yahoo google : List Topic) : List Topic :=
  emitMerged (buildAcc yahoo google)

/-- The comparator passed to `sort.Slice`. -/
def topicLess (a b : Topic) : Bool :=
  if a.rank = 0 ∧ 0 < b.rank then false
  else if b.rank = 0 ∧ 0 < a.rank then true
  else if a.rank ≠ b.rank then a.rank < b.rank
  else strLt a.title b.title

/-- Non-strict version of the comparator: `a` need not come after `b`. -/
def topicLE (a b : Topic) : Bool := ! topicLess b a

/-- Insert into a list sorted by `topicLE`. -/
def insertSorted (t : Topic) : List Topic → List Topic
  | [] => [t]
  | u :: rest => if topicLE t u then t :: u :: rest else u :: insertSorted t rest

/-- The `sort.Slice` call, modelled as a sort by the same comparator.
`sortMerged_unique_of_perm_sorted` below shows that any correct sort of
any iteration order of the map produces this same list. -/
def sortMerged : List Topic → List Topic
  | [] => []
  | t :: rest => insertSorted t (sortMerged rest)

/-- Final truncation `if topN > 0 && len(merged) > topN`. -/
def truncateTopN (l : List Topic) (topN : Int) : List Topic :=
  if 0 < topN ∧ topN < (l.length : Int) then l.take topN.toNat else l

/-- `mergeAndRank` from the source: fold, emit, sort, truncate. -/
def mergeAndRank (yahoo google : List Topic) (topN : Int) : List Topic :=
  truncateTopN (sortMerged (mergedTopics yahoo google)) topN

/-! ## Source Adapter A (`fetchGoogleTrends`) -/

/-- One decoded `<item>` of the feed. -/
structure Item where
  title : String
  description : String
  deriving DecidableEq

/-- What one URL attempt yields, as seen by the adapter: a transport
error, or a response carrying the `Content-Type`, the 512-byte diagnostic
snippet the adapter would read on a non-XML body, and the outcome of the
XML decoder (a library oracle). -/
inductive GResp where
  | reqErr (msg : String)
  | httpOk (contentType : String) (snippet : String) (decoded : Except String (List Item))

/-- The primary feed URL. -/
def googleURL1 (geo : String) : String :=
  "https://trends.google.com/trends/trendingsearches/daily/rss?hl=ja&geo=" ++ geo

/-- The secondary feed URL. -/
def googleURL2 (geo : String) : String :=
  "https://trends.google.com/trending/rss?geo=" ++ geo

/-- The item loop of `fetchGoogleTrends`: trim the title, skip empty
titles, extract the traffic note via `ft` (the oracle standing for
`reTraffic.FindString`), assign `Rank: i+1` from the loop index over all
items, and break once `max` topics are collected. -/
def collectGoogle (ft : String → String) (mx : Int) : List Item → Nat → List Topic → List Topic
  | [], _, acc => acc
  | it :: rest, i, acc =>
    if strTrim it.title = "" then collectGoogle ft mx rest (i + 1) acc
    else
      let acc' := acc ++ [⟨"google", strTrim it.title, ft it.description, i + 1⟩]
      if 0 < mx ∧ (mx : Int) ≤ (acc'.length : Int) then acc'
      else collectGoogle ft mx rest (i + 1) acc'

/-- One iteration of the URL loop of `fetchGoogleTrends`: the error cases
set `lastErr` (transport error, non-XML content type, decode failure,
zero surviving items); success returns the collected topics. -/
def googleAttempt (ft : String → String) (mx : Int) (url : String) (r : GResp) :
    Except String (List Topic) :=
  match r with
  | .reqErr msg => .error ("google trends request: " ++ msg)
  | .httpOk ct snippet dec =>
    if ! strContains ct "xml" then
      .error ("google trends non-XML response: " ++ ct ++ " ... \x22" ++ snippet ++ "\x22")
    else
      match dec with
      | .error msg => .error ("google trends decode: " ++ msg)
      | .ok items =>
        let topics := collectGoogle ft mx items 0 []
        if 0 < topics.length then .ok topics
        else .error ("google trends: zero items from " ++ url)

/-- `fetchGoogleTrends`: try the primary URL, fall back to the secondary,
return the latest failure reason when both fail (`return nil, lastErr`).
The two URL responses are oracle inputs. -/
def fetchGoogleTrends (ft : String → String) (geo : String) (mx : Int) (r1 r2 : GResp) :
    Except String (List Topic) :=
  match googleAttempt ft mx (googleURL1 geo) r1 with
  | .ok ts => .ok ts
  | .error _ =>
    match googleAttempt ft mx (googleURL2 geo) r2 with
    | .ok ts => .ok ts
    | .error e => .error e

/-! ## Source Adapter B (`fetchYahooRealtime`) -/

/-- One anchor matched by the selector `"ol li a, ul li a"`, in DOM
walk order: its `href` attribute and its visible text. -/
structure Anchor where
  href : String
  text : String
  deriving DecidableEq

/-- What the single page fetch yields: a transport error, a non-200
status, a parse failure of the DOM library, or the matched anchor list
(the oracle standing for the goquery selection). -/
inductive YResp where
  | reqErr (msg : String)
  | badStatus (status : String) (snippet : String)
  | parseErr (msg : String)
  | ok (anchors : List Anchor)

/-- First pass of `fetchYahooRealtime` (the `Each` callback): keep
anchors whose trimmed text is non-empty and whose href contains
`/realtime/search`, assigning `Rank: i+1` from the callback index over
all matched anchors. -/
def yahooCollect : List Anchor → Nat → List Topic → List Topic
  | [], _, out => out
  | a :: rest, i, out =>
    if strTrim a.text = "" ∨ ! strContains a.href "/realtime/search" then
      yahooCollect rest (i + 1) out
    else yahooCollect rest (i + 1) (out ++ [⟨"yahoo", strTrim a.text, "", i + 1⟩])

/-- Second pass of `fetchYahooRealtime`: deduplicate on the normalized
key (`seen` models the `map[string]bool`), keep first occurrences, and
break once `max` survivors are collected. -/
def dedupTopics (mx : Int) : List Topic → List String → List Topic → List Topic
  | [], _, out => out
  | t :: rest, seen, out =>
    let k := normKey t.title
    if k = "" ∨ k ∈ seen then dedupTopics mx rest seen out
    else
      let out' := out ++ [t]
      if 0 < mx ∧ (mx : Int) ≤ (out'.length : Int) then out'
      else dedupTopics mx rest (k :: seen) out'

/-- `fetchYahooRealtime`: error paths, then the two passes, then the
explicit "DOM changed?" failure when nothing survived. -/
def fetchYahooRealtime (r : YResp) (mx : Int) : Except String (List Topic) :=
  match r with
  | .reqErr msg => .error ("yahoo realtime request: " ++ msg)
  | .badStatus st snippet => .error ("yahoo realtime status: " ++ st ++ " body: \x22" ++ snippet ++ "\x22")
  | .parseErr msg => .error ("yahoo realtime parse: " ++ msg)
  | .ok anchors =>
    let out := dedupTopics mx (yahooCollect anchors 0 []) [] []
    if out.length = 0 then .error "yahoo realtime: no topics parsed (DOM changed?)"
    else .ok out


/-! ## Further definitions used by the verification -/

/-- The ordering the specification describes for the merged sort: a
present (positive) rank comes before an absent one, present ranks compare
ascending, and equal ranks (including both-absent) fall back to ascending
title order. Written from the spec's words, to be compared with the
source comparator `topicLess`. -/
def specLT (a b : Topic) : Prop :=
  (0 < a.rank ∧ b.rank = 0) ∨
  (0 < a.rank ∧ 0 < b.rank ∧ a.rank < b.rank) ∨
  (a.rank = b.rank ∧ strLt a.title b.title = true)

/-- The keys of the accumulator, in insertion order. -/
def keysOf (acc : List (String × Acc)) : List String := acc.map Prod.fst

/-- Well-formedness of the accumulator: every entry is stored under the
normalized key of its display title, keys are non-empty, and no key
repeats. -/
def AccWF (acc : List (String × Acc)) : Prop :=
  (∀ p ∈ acc, normKey p.2.title = p.1 ∧ p.1 ≠ "") ∧ (keysOf acc).Nodup

/-- The per-key effect of one `add` call: create the entry if absent,
then apply the update. -/
def groupStep (s : Option Acc) (t : Topic) : Option Acc :=
  some (applyAcc (s.getD (initAcc t)) t)

/-- The scalar best-rank update of one contribution. -/
def bestStep (b r : Nat) : Nat := if 0 < r ∧ (b = 0 ∨ r < b) then r else b

/-- Rank of the best representative, as the spec states it: the minimum
positive rank among the contributors, or the absent sentinel `0` when no
contributor has a positive rank. Written from the spec's words. -/
def minPosRank (rs : List Nat) : Nat :=
  match rs.filter (fun r => 0 < r) with
  | [] => 0
  | r :: rest => rest.foldl Nat.min r

/-- `applyAcc` with the two score weights (3 for the markup source, 2
otherwise) replaced by parameters; written from the spec's observation
that only the weights distinguish the scoring policy. -/
def applyAccW (w3 w2 : Nat) (a : Acc) (t : Topic) : Acc :=
  let a1 : Acc := { a with score := a.score + (if t.source = "yahoo" then w3 else w2) }
  let a2 : Acc := if t.note ≠ "" then { a1 with note := a1.note ++ [t.note] } else a1
  if 0 < t.rank ∧ (a2.best.rank = 0 ∨ t.rank < a2.best.rank) then { a2 with best := t } else a2

/-- `addTopic` under the parameterized weights. -/
def addTopicW (w3 w2 : Nat) (acc : List (String × Acc)) (t : Topic) : List (String × Acc) :=
  let k := normKey t.title
  if k = "" then acc
  else if hasKey acc k then
    acc.map (fun p => if p.1 = k then (p.1, applyAccW w3 w2 p.2 t) else p)
  else acc ++ [(k, applyAccW w3 w2 (initAcc t) t)]

/-- `mergeAndRank` under the parameterized weights. -/
def mergeAndRankW (w3 w2 : Nat) (yahoo google : List Topic) (topN : Int) : List Topic :=
  truncateTopN (sortMerged (emitMerged
    (google.foldl (addTopicW w3 w2) (yahoo.foldl (addTopicW w3 w2) [])))) topN

/-- The score-free view of an accumulator entry. -/
def stripS (a : Acc) : String × List String × Topic := (a.title, a.note, a.best)

/-- The score-free view of one keyed entry. -/
def stripP (p : String × Acc) : String × String × List String × Topic := (p.1, stripS p.2)

/-- The update on the score-free view. -/
def stripApply (s : String × List String × Topic) (t : Topic) : String × List String × Topic :=
  (s.1,
   (if t.note ≠ "" then s.2.1 ++ [t.note] else s.2.1),
   (if 0 < t.rank ∧ (s.2.2.rank = 0 ∨ t.rank < s.2.2.rank) then t else s.2.2))

/-- The survivors of the item loop from raw index `i` on, as the spec
describes them: one topic per non-empty-trimmed-title item, with rank one
plus the item's position among all parsed items. -/
def googleSurvivorsFrom (ft : String → String) (i : Nat) (items : List Item) : List Topic :=
  ((List.enumFrom i items).filter (fun p => ! (strTrim p.2.title == ""))).map
    (fun p => ⟨"google", strTrim p.2.title, ft p.2.description, p.1 + 1⟩)

/-- The kept anchors of the first pass from raw index `i` on, as the spec
describes them: one topic per anchor with non-empty trimmed text and a
trend-detail href, with rank one plus the anchor's position in the raw
DOM walk (counted before the filter). -/
def yahooKeptFrom (i : Nat) (anchors : List Anchor) : List Topic :=
  ((List.enumFrom i anchors).filter
    (fun p => ! (strTrim p.2.text == "") && strContains p.2.href "/realtime/search")).map
    (fun p => ⟨"yahoo", strTrim p.2.text, "", p.1 + 1⟩)

/-- The second pass as the spec words it: deduplicate by normalized key,
first occurrence wins, no truncation. -/
def specDedup : List Topic → List String → List Topic
  | [], _ => []
  | t :: rest, seen =>
    if normKey t.title = "" ∨ normKey t.title ∈ seen then specDedup rest seen
    else t :: specDedup rest (normKey t.title :: seen)

/-! ## Order properties of the comparator -/

theorem listLtB_irrefl : ∀ l : List Char, listLtB l l = false := by
  intro l
  induction l with
  | nil => rfl
  | cons a as ih => simp [listLtB, ih]

theorem listLtB_trans : ∀ a b c : List Char,
    listLtB a b = true → listLtB b c = true → listLtB a c = true := by
  intro a
  induction a with
  | nil =>
    intro b c hab hbc
    cases b with
    | nil => cases c <;> simp_all [listLtB]
    | cons y ys => cases c with
      | nil => simp [listLtB] at hbc
      | cons z zs => simp [listLtB]
  | cons x xs ih =>
    intro b c hab hbc
    cases b with
    | nil => simp [listLtB] at hab
    | cons y ys =>
      cases c with
      | nil => simp [listLtB] at hbc
      | cons z zs =>
        simp only [listLtB] at hab hbc ⊢
        split_ifs at hab hbc ⊢ with h1 h2 h3 h4 h5 h6
        all_goals simp_all
        all_goals try omega
        exact ih ys zs hab hbc

theorem listLtB_eq_of_not : ∀ a b : List Char,
    listLtB a b = false → listLtB b a = false → a = b := by
  intro a
  induction a with
  | nil =>
    intro b hab _
    cases b with
    | nil => rfl
    | cons y ys => simp [listLtB] at hab
  | cons x xs ih =>
    intro b hab hba
    cases b with
    | nil => simp [listLtB] at hba
    | cons y ys =>
      simp only [listLtB] at hab hba
      split_ifs at hab hba with h1 h2
      all_goals simp_all
      have hxy : x = y := by
        have hn : x.toNat = y.toNat := by omega
        cases x with
        | mk v hv => cases y with
          | mk w hw =>
            simp only [Char.toNat] at hn
            congr 1
            exact UInt32.toNat.inj hn
      exact ⟨hxy, ih ys hab hba⟩

theorem strLt_trans {a b c : String} (h1 : strLt a b = true) (h2 : strLt b c = true) :
    strLt a c = true := listLtB_trans a.data b.data c.data h1 h2

theorem strLt_irrefl (a : String) : strLt a a = false := listLtB_irrefl a.data

theorem strEq_of_not_lt {a b : String} (h1 : strLt a b = false) (h2 : strLt b a = false) :
    a = b := by
  have hd : a.data = b.data := listLtB_eq_of_not a.data b.data h1 h2
  cases a with
  | mk da => cases b with
    | mk db => cases hd; rfl

/-- The source comparator realizes exactly the spec's order relation. -/
theorem topicLess_iff_specLT (a b : Topic) : topicLess a b = true ↔ specLT a b := by
  unfold topicLess specLT
  split_ifs with h1 h2 h3
  · simp only [Bool.false_eq_true, false_iff]
    rintro (⟨ha, hb⟩ | ⟨ha, _, _⟩ | ⟨ha, _⟩) <;> omega
  · simp only [true_iff]
    left
    exact ⟨h2.2, h2.1⟩
  · simp only [decide_eq_true_eq]
    constructor
    · intro hlt
      right; left
      refine ⟨?_, ?_, hlt⟩ <;> omega
    · rintro (⟨ha, hb⟩ | ⟨_, _, hlt⟩ | ⟨heq, _⟩) <;> omega
  · constructor
    · intro hlt
      right; right
      exact ⟨by omega, hlt⟩
    · rintro (⟨ha, hb⟩ | ⟨_, _, hlt⟩ | ⟨_, hlt⟩)
      · omega
      · omega
      · exact hlt

theorem topicLess_asymm {a b : Topic} (h : topicLess a b = true) : topicLess b a = false := by
  rw [topicLess_iff_specLT] at h
  by_contra hc
  rw [Bool.not_eq_false, topicLess_iff_specLT] at hc
  rcases h with ⟨_, _⟩ | ⟨_, _, _⟩ | ⟨_, hl⟩ <;>
    rcases hc with ⟨_, _⟩ | ⟨_, _, _⟩ | ⟨_, hl'⟩ <;> try omega
  have := listLtB_trans _ _ _ hl hl'
  rw [listLtB_irrefl] at this
  exact absurd this (by simp)

theorem topicLess_eq_of_not {a b : Topic} (h1 : topicLess a b = false)
    (h2 : topicLess b a = false) : a.rank = b.rank ∧ a.title = b.title := by
  have hab : ¬ specLT a b := by
    intro h
    rw [← topicLess_iff_specLT, h1] at h
    exact absurd h (by simp)
  have hba : ¬ specLT b a := by
    intro h
    rw [← topicLess_iff_specLT, h2] at h
    exact absurd h (by simp)
  unfold specLT at hab hba
  push_neg at hab hba
  have hr : a.rank = b.rank := by
    rcases Nat.eq_zero_or_pos a.rank with ha | ha <;> rcases Nat.eq_zero_or_pos b.rank with hb | hb
    · omega
    · exact absurd ha (hba.1 hb)
    · exact absurd hb (hab.1 ha)
    · have := hab.2.1 ha hb
      have := hba.2.1 hb ha
      omega
  refine ⟨hr, strEq_of_not_lt ?_ ?_⟩
  · have := hab.2.2 hr
    simpa using this
  · have := hba.2.2 hr.symm
    simpa using this

/-- Negative transitivity of the comparator, the shape needed for
transitivity of the non-strict order. -/
theorem topicLess_neg_trans (a b c : Topic) (h : topicLess c a = true) :
    topicLess c b = true ∨ topicLess b a = true := by
  rw [topicLess_iff_specLT] at h ⊢
  rw [topicLess_iff_specLT]
  by_cases hcb : topicLess c b = true
  · left; rwa [topicLess_iff_specLT] at hcb
  · by_cases hba : topicLess b a = true
    · right; rwa [topicLess_iff_specLT] at hba
    · exfalso
      rw [Bool.not_eq_true] at hcb hba
      unfold specLT at h
      rcases h with ⟨hc, ha⟩ | ⟨hc, ha, hlt⟩ | ⟨heq, hlt⟩
      · rcases Nat.eq_zero_or_pos b.rank with hb | hb
        · exact absurd ((topicLess_iff_specLT c b).mpr (Or.inl ⟨hc, hb⟩)) (by simp [hcb])
        · exact absurd ((topicLess_iff_specLT b a).mpr (Or.inl ⟨hb, ha⟩)) (by simp [hba])
      · rcases Nat.eq_zero_or_pos b.rank with hb | hb
        · exact absurd ((topicLess_iff_specLT c b).mpr (Or.inl ⟨hc, hb⟩)) (by simp [hcb])
        · by_cases hcb' : c.rank < b.rank
          · exact absurd ((topicLess_iff_specLT c b).mpr
              (Or.inr (Or.inl ⟨hc, hb, hcb'⟩))) (by simp [hcb])
          · have : b.rank < a.rank := by omega
            exact absurd ((topicLess_iff_specLT b a).mpr
              (Or.inr (Or.inl ⟨hb, ha, this⟩))) (by simp [hba])
      · -- equal ranks, strict title order
        rcases Nat.lt_trichotomy c.rank b.rank with hr | hr | hr
        · rcases Nat.eq_zero_or_pos c.rank with hc0 | hc0
          · -- c absent, b present: b sorts before a = rank of c, so b < a by rank or absence
            have hb : 0 < b.rank := by omega
            exact absurd ((topicLess_iff_specLT b a).mpr (Or.inl ⟨hb, by omega⟩)) (by simp [hba])
          · exact absurd ((topicLess_iff_specLT c b).mpr
              (Or.inr (Or.inl ⟨hc0, by omega, hr⟩))) (by simp [hcb])
        · -- ranks all equal: title trichotomy
          by_cases ht : strLt c.title b.title = true
          · exact absurd ((topicLess_iff_specLT c b).mpr (Or.inr (Or.inr ⟨hr, ht⟩))) (by simp [hcb])
          · by_cases ht' : strLt b.title c.title = true
            · have : strLt b.title a.title = true := strLt_trans ht' hlt
              exact absurd ((topicLess_iff_specLT b a).mpr
                (Or.inr (Or.inr ⟨by omega, this⟩))) (by simp [hba])
            · have : b.title = c.title :=
                strEq_of_not_lt (by simpa using ht') (by simpa using ht)
              have : strLt b.title a.title = true := this ▸ hlt
              exact absurd ((topicLess_iff_specLT b a).mpr
                (Or.inr (Or.inr ⟨by omega, this⟩))) (by simp [hba])
        · rcases Nat.eq_zero_or_pos b.rank with hb0 | hb0
          · -- b absent, c present (rank of c = rank of a > rank of b = 0)
            exact absurd ((topicLess_iff_specLT c b).mpr (Or.inl ⟨by omega, hb0⟩)) (by simp [hcb])
          · exact absurd ((topicLess_iff_specLT b a).mpr
              (Or.inr (Or.inl ⟨hb0, by omega, by omega⟩))) (by simp [hba])

theorem topicLE_total (a b : Topic) : topicLE a b = true ∨ topicLE b a = true := by
  unfold topicLE
  by_cases h : topicLess b a = true
  · right
    simp [topicLess_asymm h]
  · left
    simp_all

theorem topicLE_trans {a b c : Topic} (h1 : topicLE a b = true) (h2 : topicLE b c = true) :
    topicLE a c = true := by
  unfold topicLE at h1 h2 ⊢
  simp only [Bool.not_eq_true'] at h1 h2 ⊢
  by_contra hc
  rw [Bool.not_eq_false] at hc
  rcases topicLess_neg_trans _ b _ hc with h | h
  · rw [h2] at h; exact absurd h (by simp)
  · rw [h1] at h; exact absurd h (by simp)

theorem topicLE_eq_of_both {a b : Topic} (h1 : topicLE a b = true) (h2 : topicLE b a = true) :
    a.rank = b.rank ∧ a.title = b.title := by
  unfold topicLE at h1 h2
  simp only [Bool.not_eq_true'] at h1 h2
  exact topicLess_eq_of_not h2 h1

/-! ## The modelled sort -/

theorem insertSorted_perm (t : Topic) (l : List Topic) :
    (insertSorted t l).Perm (t :: l) := by
  induction l with
  | nil => exact List.Perm.refl _
  | cons u rest ih =>
    unfold insertSorted
    split_ifs
    · exact List.Perm.refl _
    · exact (ih.cons u).trans (List.Perm.swap t u rest)

theorem sortMerged_perm (l : List Topic) : (sortMerged l).Perm l := by
  induction l with
  | nil => exact List.Perm.refl _
  | cons t rest ih =>
    unfold sortMerged
    exact (insertSorted_perm t (sortMerged rest)).trans (ih.cons t)

theorem insertSorted_pairwise (t : Topic) (l : List Topic)
    (h : l.Pairwise (fun a b => topicLE a b = true)) :
    (insertSorted t l).Pairwise (fun a b => topicLE a b = true) := by
  induction l with
  | nil => simp [insertSorted]
  | cons u rest ih =>
    unfold insertSorted
    rcases List.pairwise_cons.mp h with ⟨hu, hrest⟩
    split_ifs with hle
    · refine List.pairwise_cons.mpr ⟨?_, h⟩
      intro v hv
      rcases List.mem_cons.mp hv with rfl | hv
      · exact hle
      · exact topicLE_trans hle (hu v hv)
    · have hut : topicLE u t = true := by
        rcases topicLE_total t u with h' | h'
        · exact absurd h' hle
        · exact h'
      refine List.pairwise_cons.mpr ⟨?_, ih hrest⟩
      intro v hv
      have hv' : v ∈ t :: rest := (insertSorted_perm t rest).mem_iff.mp hv
      rcases List.mem_cons.mp hv' with rfl | hv'
      · exact hut
      · exact hu v hv'

theorem sortMerged_pairwise (l : List Topic) :
    (sortMerged l).Pairwise (fun a b => topicLE a b = true) := by
  induction l with
  | nil => simp [sortMerged]
  | cons t rest ih => exact insertSorted_pairwise t (sortMerged rest) ih

/-- A sorted list with pairwise-distinct titles is the unique sorted
arrangement of its multiset: any two sorted permutations coincide. -/
theorem eq_of_perm_of_sorted_distinct :
    ∀ (l₁ l₂ : List Topic), l₁.Perm l₂ →
      l₁.Pairwise (fun a b => topicLE a b = true) →
      l₂.Pairwise (fun a b => topicLE a b = true) →
      l₁.Pairwise (fun a b => a.title ≠ b.title) → l₁ = l₂ := by
  intro l₁
  induction l₁ with
  | nil =>
    intro l₂ hp _ _ _
    exact (hp.nil_eq).symm ▸ rfl
  | cons a t₁ ih =>
    intro l₂ hp hs₁ hs₂ hd
    cases l₂ with
    | nil => exact absurd hp.symm (by simp)
    | cons b t₂ =>
      rcases List.pairwise_cons.mp hs₁ with ⟨ha, ht₁⟩
      rcases List.pairwise_cons.mp hs₂ with ⟨hb, ht₂⟩
      rcases List.pairwise_cons.mp hd with ⟨hda, hdt⟩
      have hab : a = b := by
        by_contra hne
        have hamem : a ∈ b :: t₂ := hp.subset (List.mem_cons_self a t₁)
        have hbmem : b ∈ a :: t₁ := hp.symm.subset (List.mem_cons_self b t₂)
        have h1 : topicLE a b = true := by
          rcases List.mem_cons.mp hbmem with rfl | hbmem
          · exact absurd rfl hne
          · exact ha b hbmem
        have h2 : topicLE b a = true := by
          rcases List.mem_cons.mp hamem with h' | hamem
          · exact absurd h' hne
          · exact hb a hamem
        have hts : a.title = b.title := (topicLE_eq_of_both h1 h2).2
        rcases List.mem_cons.mp hbmem with rfl | hbmem
        · exact hne rfl
        · exact hda b hbmem hts
      subst hab
      have hp' : t₁.Perm t₂ := hp.cons_inv
      exact congrArg (a :: ·) (ih t₂ hp' ht₁ ht₂ hdt)

/-- Any sorted permutation of a distinct-title list equals the canonical
sort of that list. -/
theorem sorted_perm_eq_sortMerged {l m : List Topic} (hp : l.Perm m)
    (hs : l.Pairwise (fun a b => topicLE a b = true))
    (hd : m.Pairwise (fun a b => a.title ≠ b.title)) : l = sortMerged m := by
  have hperm : l.Perm (sortMerged m) := hp.trans (sortMerged_perm m).symm
  have hd' : l.Pairwise (fun a b => a.title ≠ b.title) :=
    (hp.pairwise_iff (fun h he => h he.symm)).mpr hd
  exact eq_of_perm_of_sorted_distinct l (sortMerged m) hperm hs (sortMerged_pairwise m) hd'

/-! ## Accumulator invariants -/

/-- Field-wise description of one `add` update. -/
theorem applyAcc_eq (a : Acc) (t : Topic) : applyAcc a t =
    { title := a.title,
      note := if t.note ≠ "" then a.note ++ [t.note] else a.note,
      score := a.score + (if t.source = "yahoo" then 3 else 2),
      best := if 0 < t.rank ∧ (a.best.rank = 0 ∨ t.rank < a.best.rank) then t else a.best } := by
  unfold applyAcc
  dsimp only
  split_ifs <;> rfl

theorem applyAcc_title (a : Acc) (t : Topic) : (applyAcc a t).title = a.title := by
  rw [applyAcc_eq]

theorem applyAcc_best_rank (a : Acc) (t : Topic) :
    (applyAcc a t).best.rank =
      if 0 < t.rank ∧ (a.best.rank = 0 ∨ t.rank < a.best.rank) then t.rank else a.best.rank := by
  rw [applyAcc_eq]
  split_ifs <;> rfl

theorem hasKey_iff (acc : List (String × Acc)) (k : String) :
    hasKey acc k = true ↔ k ∈ keysOf acc := by
  induction acc with
  | nil => simp [hasKey, keysOf]
  | cons p rest ih =>
    simp only [hasKey, Bool.or_eq_true, decide_eq_true_eq, ih, keysOf,
      List.map_cons, List.mem_cons]
    constructor
    · rintro (h | h)
      · exact Or.inl h.symm
      · exact Or.inr h
    · rintro (h | h)
      · exact Or.inl h.symm
      · exact Or.inr h

theorem keysOf_updateKey (acc : List (String × Acc)) (k : String) (t : Topic) :
    keysOf (updateKey acc k t) = keysOf acc := by
  induction acc with
  | nil => rfl
  | cons p rest ih =>
    simp only [updateKey, keysOf, List.map_cons] at ih ⊢
    split_ifs with h
    · simpa using ih
    · simpa using ih

theorem keysOf_addTopic (acc : List (String × Acc)) (t : Topic) :
    keysOf (addTopic acc t) =
      if normKey t.title = "" ∨ hasKey acc (normKey t.title) = true then keysOf acc
      else keysOf acc ++ [normKey t.title] := by
  unfold addTopic
  dsimp only
  by_cases h1 : normKey t.title = ""
  · simp [h1]
  · by_cases h2 : hasKey acc (normKey t.title) = true
    · simp [h1, h2, keysOf_updateKey]
    · simp [h1, h2, keysOf]

theorem addTopic_wf (acc : List (String × Acc)) (t : Topic) (h : AccWF acc) :
    AccWF (addTopic acc t) := by
  rcases h with ⟨hent, hnd⟩
  unfold addTopic
  dsimp only
  split_ifs with h1 h2
  · exact ⟨hent, hnd⟩
  · constructor
    · intro p hp
      unfold updateKey at hp
      rcases List.mem_map.mp hp with ⟨q, hq, hqe⟩
      split_ifs at hqe with hqk
      · cases hqe
        simp only [applyAcc_title]
        exact hent q hq
      · exact hqe ▸ hent q hq
    · rw [keysOf_updateKey]
      exact hnd
  · constructor
    · intro p hp
      rcases List.mem_append.mp hp with hp | hp
      · exact hent p hp
      · rcases List.mem_singleton.mp hp with rfl
        refine ⟨?_, h1⟩
        simp only [applyAcc_title, initAcc]
    · rw [keysOf, List.map_append]
      refine List.Nodup.append (by rw [← keysOf]; exact hnd) (by simp) ?_
      intro x hx hy
      simp only [List.map_cons, List.map_nil, List.mem_singleton] at hy
      subst hy
      rw [← keysOf] at hx
      exact h2 ((hasKey_iff acc _).mpr hx)

theorem foldl_addTopic_wf (ts : List Topic) (acc : List (String × Acc)) (h : AccWF acc) :
    AccWF (ts.foldl addTopic acc) := by
  induction ts generalizing acc with
  | nil => exact h
  | cons t rest ih => exact ih (addTopic acc t) (addTopic_wf acc t h)

theorem buildAcc_wf (yahoo google : List Topic) : AccWF (buildAcc yahoo google) :=
  foldl_addTopic_wf google _ (foldl_addTopic_wf yahoo [] ⟨by simp, by simp [keysOf]⟩)

/-! ## Key membership through the fold -/

theorem keysOf_mem_addTopic (acc : List (String × Acc)) (t : Topic) (k : String) :
    k ∈ keysOf (addTopic acc t) ↔
      k ∈ keysOf acc ∨ (k ≠ "" ∧ normKey t.title = k) := by
  rw [keysOf_addTopic]
  split_ifs with h
  · rcases h with h | h
    · constructor
      · exact Or.inl
      · rintro (hk | ⟨hne, hkt⟩)
        · exact hk
        · exact absurd (hkt ▸ h) (hkt ▸ hne)
    · constructor
      · exact Or.inl
      · rintro (hk | ⟨hne, hkt⟩)
        · exact hk
        · rw [← hkt]
          exact (hasKey_iff acc _).mp h
  · push_neg at h
    simp only [List.mem_append, List.mem_singleton]
    constructor
    · rintro (hk | rfl)
      · exact Or.inl hk
      · exact Or.inr ⟨h.1, rfl⟩
    · rintro (hk | ⟨hne, hkt⟩)
      · exact Or.inl hk
      · exact Or.inr hkt.symm

theorem keysOf_mem_foldl (ts : List Topic) (acc : List (String × Acc)) (k : String) :
    k ∈ keysOf (ts.foldl addTopic acc) ↔
      k ∈ keysOf acc ∨ (k ≠ "" ∧ ∃ t ∈ ts, normKey t.title = k) := by
  induction ts generalizing acc with
  | nil => simp
  | cons t rest ih =>
    simp only [List.foldl_cons]
    rw [ih, keysOf_mem_addTopic]
    constructor
    · rintro ((hk | ⟨hne, hkt⟩) | ⟨hne, u, hu, hku⟩)
      · exact Or.inl hk
      · exact Or.inr ⟨hne, t, List.mem_cons_self t rest, hkt⟩
      · exact Or.inr ⟨hne, u, List.mem_cons_of_mem t hu, hku⟩
    · rintro (hk | ⟨hne, u, hu, hku⟩)
      · exact Or.inl (Or.inl hk)
      · rcases List.mem_cons.mp hu with rfl | hu
        · exact Or.inl (Or.inr ⟨hne, hku⟩)
        · exact Or.inr ⟨hne, u, hu, hku⟩

/-! ## Per-key projection of the fold -/

theorem lookupAcc_append_of_some (acc : List (String × Acc)) (k k' : String) (v a : Acc)
    (h : lookupAcc k acc = some a) : lookupAcc k (acc ++ [(k', v)]) = some a := by
  induction acc with
  | nil => simp [lookupAcc] at h
  | cons p rest ih =>
    simp only [lookupAcc] at h
    simp only [List.cons_append, lookupAcc]
    split_ifs at h ⊢ with hp
    · exact h
    · exact ih h

theorem lookupAcc_append_of_none (acc : List (String × Acc)) (k k' : String) (v : Acc)
    (h : lookupAcc k acc = none) :
    lookupAcc k (acc ++ [(k', v)]) = if k' = k then some v else none := by
  induction acc with
  | nil => simp [lookupAcc]
  | cons p rest ih =>
    simp only [lookupAcc] at h
    simp only [List.cons_append, lookupAcc]
    by_cases hp : p.1 = k
    · rw [if_pos hp] at h
      exact absurd h (by simp)
    · rw [if_neg hp] at h
      rw [if_neg hp]
      exact ih h

theorem lookupAcc_updateKey_same (acc : List (String × Acc)) (k : String) (t : Topic) :
    lookupAcc k (updateKey acc k t) = (lookupAcc k acc).map (fun a => applyAcc a t) := by
  induction acc with
  | nil => simp [lookupAcc, updateKey]
  | cons p rest ih =>
    simp only [updateKey, List.map_cons] at ih ⊢
    by_cases h : p.1 = k
    · simp [lookupAcc, h]
    · simp [lookupAcc, h, ih]

theorem lookupAcc_updateKey_other (acc : List (String × Acc)) (k k' : String) (t : Topic)
    (hne : k' ≠ k) :
    lookupAcc k (updateKey acc k' t) = lookupAcc k acc := by
  induction acc with
  | nil => simp [lookupAcc, updateKey]
  | cons p rest ih =>
    obtain ⟨pk, pv⟩ := p
    simp only [updateKey, List.map_cons] at ih ⊢
    by_cases h : pk = k'
    · have hpk : ¬ pk = k := fun hc => hne (h ▸ hc)
      simp [lookupAcc, h, hpk, ih, hne]
    · by_cases h2 : pk = k
      · have hkk : ¬ k = k' := fun hc => hne hc.symm
        simp [lookupAcc, h, h2, hkk]
      · simp [lookupAcc, h, h2, ih]

theorem hasKey_eq_isSome (acc : List (String × Acc)) (k : String) :
    hasKey acc k = (lookupAcc k acc).isSome := by
  induction acc with
  | nil => simp [hasKey, lookupAcc]
  | cons p rest ih =>
    simp only [hasKey, lookupAcc]
    by_cases h : p.1 = k
    · simp [h]
    · simp [h, ih]

theorem lookupAcc_addTopic_same (acc : List (String × Acc)) (t : Topic) (k : String)
    (hk : k ≠ "") (ht : normKey t.title = k) :
    lookupAcc k (addTopic acc t) = groupStep (lookupAcc k acc) t := by
  unfold addTopic
  dsimp only
  rw [ht]
  split_ifs with h1 h2
  · exact absurd h1 hk
  · rw [lookupAcc_updateKey_same]
    rw [hasKey_eq_isSome] at h2
    rcases ho : lookupAcc k acc with _ | a
    · rw [ho] at h2
      simp at h2
    · simp [groupStep]
  · rw [hasKey_eq_isSome] at h2
    rcases ho : lookupAcc k acc with _ | a
    · rw [lookupAcc_append_of_none acc k k (applyAcc (initAcc t) t) ho]
      simp [groupStep]
    · rw [ho] at h2
      simp at h2

theorem lookupAcc_addTopic_other (acc : List (String × Acc)) (t : Topic) (k : String)
    (hne : normKey t.title ≠ k) :
    lookupAcc k (addTopic acc t) = lookupAcc k acc := by
  unfold addTopic
  dsimp only
  split_ifs with h1 h2
  · rfl
  · exact lookupAcc_updateKey_other acc k _ t hne
  · rcases ho : lookupAcc k acc with _ | a
    · rw [lookupAcc_append_of_none acc k _ (applyAcc (initAcc t) t) ho]
      rw [if_neg hne]
    · rw [lookupAcc_append_of_some acc k _ (applyAcc (initAcc t) t) a ho]

theorem lookupAcc_foldl (ts : List Topic) (acc : List (String × Acc)) (k : String)
    (hk : k ≠ "") :
    lookupAcc k (ts.foldl addTopic acc) =
      (ts.filter (fun t => normKey t.title = k)).foldl groupStep (lookupAcc k acc) := by
  induction ts generalizing acc with
  | nil => simp
  | cons t rest ih =>
    simp only [List.foldl_cons]
    by_cases ht : normKey t.title = k
    · rw [ih (addTopic acc t), lookupAcc_addTopic_same acc t k hk ht]
      simp [ht]
    · rw [ih (addTopic acc t), lookupAcc_addTopic_other acc t k ht]
      simp [ht]

/-! ## Best-rank analysis -/

theorem applyAcc_best_rank_step (a : Acc) (t : Topic) :
    (applyAcc a t).best.rank = bestStep a.best.rank t.rank := by
  rw [applyAcc_eq, bestStep]
  split_ifs <;> rfl

theorem minPosRank_bestStep_cons (b r : Nat) (rest : List Nat) :
    minPosRank (bestStep b r :: rest) = minPosRank (b :: r :: rest) := by
  unfold bestStep minPosRank
  rcases Nat.eq_zero_or_pos b with hb | hb <;> rcases Nat.eq_zero_or_pos r with hr | hr
  · subst hb
    subst hr
    simp
  · subst hb
    simp [hr]
  · subst hr
    simp [hb]
  · have hmind : Nat.min b r = if b ≤ r then b else r := rfl
    have hbr : (if 0 < r ∧ (b = 0 ∨ r < b) then r else b) = Nat.min b r := by
      rw [hmind]
      split_ifs <;> omega
    rw [hbr]
    have hmin : 0 < Nat.min b r := by
      rw [hmind]
      split_ifs <;> omega
    simp only [List.filter_cons, decide_eq_true_eq, hmin, hb, hr, if_true]
    rfl

theorem foldl_bestStep_minPos (rs : List Nat) (b : Nat) :
    rs.foldl bestStep b = minPosRank (b :: rs) := by
  induction rs generalizing b with
  | nil =>
    unfold minPosRank
    rcases Nat.eq_zero_or_pos b with hb | hb
    · subst hb
      simp
    · simp [hb]
  | cons r rest ih =>
    simp only [List.foldl_cons]
    rw [ih (bestStep b r), minPosRank_bestStep_cons]

theorem foldl_groupStep_some (ts : List Topic) (a : Acc) :
    ∃ a', ts.foldl groupStep (some a) = some a' ∧
      a'.best.rank = (ts.map Topic.rank).foldl bestStep a.best.rank ∧
      a'.title = a.title := by
  induction ts generalizing a with
  | nil => exact ⟨a, rfl, rfl, rfl⟩
  | cons t rest ih =>
    simp only [List.foldl_cons, List.map_cons]
    rcases ih (applyAcc a t) with ⟨a', he, hr, htl⟩
    refine ⟨a', ?_, ?_, ?_⟩
    · simpa [groupStep] using he
    · rw [hr, applyAcc_best_rank_step]
    · rw [htl, applyAcc_title]

/-- A non-empty contribution group folds to an accumulator whose best
rank is the spec's minimum positive rank and whose display title is the
first contributor's. -/
theorem groupFold_best (c : Topic) (cs : List Topic) :
    ∃ a', (c :: cs).foldl groupStep none = some a' ∧
      a'.best.rank = minPosRank ((c :: cs).map Topic.rank) ∧
      a'.title = c.title := by
  simp only [List.foldl_cons, List.map_cons]
  have hinit : groupStep none c = some (applyAcc (initAcc c) c) := rfl
  rw [hinit]
  rcases foldl_groupStep_some cs (applyAcc (initAcc c) c) with ⟨a', he, hr, htl⟩
  refine ⟨a', he, ?_, by rw [htl, applyAcc_title, initAcc]⟩
  rw [hr, applyAcc_best_rank_step]
  have : bestStep (initAcc c).best.rank c.rank = bestStep c.rank c.rank := rfl
  rw [this]
  have hcc : bestStep c.rank c.rank = c.rank := by
    unfold bestStep
    split_ifs <;> omega
  rw [hcc, foldl_bestStep_minPos]

end NetaBako

namespace NetaBako

/-! ## Structure of the merged list -/

theorem mem_lookupAcc_of_nodup (acc : List (String × Acc)) (p : String × Acc)
    (hp : p ∈ acc) (hnd : (keysOf acc).Nodup) : lookupAcc p.1 acc = some p.2 := by
  induction acc with
  | nil => simp at hp
  | cons q rest ih =>
    rcases List.mem_cons.mp hp with rfl | hp
    · simp [lookupAcc]
    · have hq : q.1 ≠ p.1 := by
        intro hc
        have : p.1 ∈ keysOf rest := List.mem_map.mpr ⟨p, hp, rfl⟩
        rw [keysOf, List.map_cons, List.nodup_cons] at hnd
        exact hnd.1 (hc ▸ this)
      rw [lookupAcc, if_neg hq]
      exact ih hp (by
        rw [keysOf, List.map_cons, List.nodup_cons] at hnd
        exact hnd.2)

theorem mergedTopics_titles_distinct (yahoo google : List Topic) :
    (mergedTopics yahoo google).Pairwise (fun a b => a.title ≠ b.title) := by
  have hwf := buildAcc_wf yahoo google
  unfold mergedTopics emitMerged
  rw [List.pairwise_map]
  have hkeys : (buildAcc yahoo google).Pairwise (fun p q => p.1 ≠ q.1) := by
    have h2 := hwf.2
    rw [keysOf] at h2
    unfold List.Nodup at h2
    exact List.pairwise_map.mp h2
  refine hkeys.imp_of_mem ?_
  intro p q hp hq hne hceq
  have h1 := (hwf.1 p hp).1
  have h2 := (hwf.1 q hq).1
  exact hne (h1 ▸ h2 ▸ congrArg normKey hceq)

end NetaBako

namespace NetaBako

theorem truncateTopN_zero (l : List Topic) : truncateTopN l 0 = l := by
  unfold truncateTopN
  simp

theorem mem_of_mem_mergeAndRank {yahoo google : List Topic} {topN : Int} {u : Topic}
    (hu : u ∈ mergeAndRank yahoo google topN) : u ∈ mergedTopics yahoo google := by
  unfold mergeAndRank truncateTopN at hu
  have hs : u ∈ sortMerged (mergedTopics yahoo google) := by
    split_ifs at hu with h
    · exact (List.take_sublist _ _).subset hu
    · exact hu
  exact (sortMerged_perm _).subset hs

theorem lookupAcc_buildAcc (yahoo google : List Topic) (k : String) (hk : k ≠ "") :
    lookupAcc k (buildAcc yahoo google) =
      (((yahoo ++ google).filter (fun t => normKey t.title = k)).foldl groupStep none) := by
  unfold buildAcc
  rw [lookupAcc_foldl google _ k hk, lookupAcc_foldl yahoo [] k hk]
  rw [List.filter_append, List.foldl_append]
  rfl

theorem keysOf_buildAcc_mem (yahoo google : List Topic) (k : String) :
    k ∈ keysOf (buildAcc yahoo google) ↔
      k ≠ "" ∧ ∃ t ∈ yahoo ++ google, normKey t.title = k := by
  unfold buildAcc
  rw [keysOf_mem_foldl, keysOf_mem_foldl]
  constructor
  · rintro ((hk | ⟨hne, t, ht, hkt⟩) | ⟨hne, t, ht, hkt⟩)
    · simp [keysOf] at hk
    · exact ⟨hne, t, List.mem_append.mpr (Or.inl ht), hkt⟩
    · exact ⟨hne, t, List.mem_append.mpr (Or.inr ht), hkt⟩
  · rintro ⟨hne, t, ht, hkt⟩
    rcases List.mem_append.mp ht with ht | ht
    · exact Or.inl (Or.inr ⟨hne, t, ht, hkt⟩)
    · exact Or.inr ⟨hne, t, ht, hkt⟩

/-- Every merged entry carries a non-empty normalized key, its rank is
the spec's minimum positive contributor rank, and its title is the first
contributor's display title. -/
theorem mergedTopics_entry (yahoo google : List Topic) (u : Topic)
    (hu : u ∈ mergedTopics yahoo google) :
    normKey u.title ≠ "" ∧
      u.rank = minPosRank
        (((yahoo ++ google).filter (fun t => normKey t.title = normKey u.title)).map Topic.rank) := by
  have hwf := buildAcc_wf yahoo google
  unfold mergedTopics emitMerged at hu
  rcases List.mem_map.mp hu with ⟨p, hp, hup⟩
  have hent := hwf.1 p hp
  have htitle : u.title = p.2.title := by rw [← hup]
  have hrank : u.rank = p.2.best.rank := by rw [← hup]
  have hkey : normKey u.title = p.1 := htitle ▸ hent.1
  refine ⟨hkey ▸ hent.2, ?_⟩
  have hl : lookupAcc p.1 (buildAcc yahoo google) = some p.2 :=
    mem_lookupAcc_of_nodup _ p hp hwf.2
  rw [lookupAcc_buildAcc yahoo google p.1 hent.2] at hl
  rcases hc : (yahoo ++ google).filter (fun t => normKey t.title = p.1) with _ | ⟨c, cs⟩
  · rw [hc] at hl
    simp at hl
  · rw [hc] at hl
    rcases groupFold_best c cs with ⟨a', ha', hr, _⟩
    rw [ha'] at hl
    have : a' = p.2 := by injection hl
    rw [hkey, hc, hrank, ← this, hr]

end NetaBako

namespace NetaBako

/-- A normalized key occurs in the untruncated merged output exactly when
some contributor carries it and it is non-empty. -/
theorem mergeAndRank_key_mem (yahoo google : List Topic) (k : String) :
    (∃ u ∈ mergeAndRank yahoo google 0, normKey u.title = k) ↔
      (k ≠ "" ∧ ∃ t ∈ yahoo ++ google, normKey t.title = k) := by
  constructor
  · rintro ⟨u, hu, hk⟩
    have hm := mem_of_mem_mergeAndRank hu
    have hwf := buildAcc_wf yahoo google
    unfold mergedTopics emitMerged at hm
    rcases List.mem_map.mp hm with ⟨p, hp, hup⟩
    have htitle : u.title = p.2.title := by rw [← hup]
    have hkey : k = p.1 := by rw [← hk, htitle, (hwf.1 p hp).1]
    have : k ∈ keysOf (buildAcc yahoo google) :=
      hkey ▸ List.mem_map.mpr ⟨p, hp, rfl⟩
    exact (keysOf_buildAcc_mem yahoo google k).mp this
  · intro h
    have hmem : k ∈ keysOf (buildAcc yahoo google) :=
      (keysOf_buildAcc_mem yahoo google k).mpr h
    rcases List.mem_map.mp hmem with ⟨p, hp, hpk⟩
    have hwf := buildAcc_wf yahoo google
    refine ⟨⟨"mix", p.2.title, joinSep " / " p.2.note, p.2.best.rank⟩, ?_, ?_⟩
    · rw [mergeAndRank, truncateTopN_zero]
      refine (sortMerged_perm _).mem_iff.mpr ?_
      unfold mergedTopics emitMerged
      exact List.mem_map.mpr ⟨p, hp, rfl⟩
    · show normKey p.2.title = k
      rw [(hwf.1 p hp).1, hpk]

/-- C1 (counterexample): as stated, the claim fails twice over. A topic
whose title normalizes to the empty key is discarded entirely, and with a
positive `topN` a surviving key can be truncated away, so in both cases a
title from the input occurs zero times in the output. -/
theorem C1_counterexample :
    ((mergeAndRank [⟨"yahoo", " ", "", 1⟩] [] 0).countP
        (fun u => normKey u.title == normKey " ") = 0) ∧
    ((mergeAndRank [⟨"yahoo", "a", "", 1⟩, ⟨"yahoo", "b", "", 2⟩] [] 1).countP
        (fun u => normKey u.title == normKey "b") = 0) := by
  constructor
  · rfl
  · rfl

/-- C1 (amended): in the untruncated merged output (`topN = 0`), every
input title whose normalized key is non-empty occurs exactly once,
counted by normalized key. -/
theorem C1_unique_key_in_merged (yahoo google : List Topic) (t : Topic)
    (hmem : t ∈ yahoo ++ google) (hk : normKey t.title ≠ "") :
    (mergeAndRank yahoo google 0).countP
      (fun u => normKey u.title == normKey t.title) = 1 := by
  have hwf := buildAcc_wf yahoo google
  rw [mergeAndRank, truncateTopN_zero]
  rw [(sortMerged_perm _).countP_eq]
  unfold mergedTopics emitMerged
  rw [List.countP_map]
  have hcong : List.countP
      ((fun u : Topic => normKey u.title == normKey t.title) ∘
        (fun p : String × Acc => (⟨"mix", p.2.title, joinSep " / " p.2.note, p.2.best.rank⟩ : Topic)))
      (buildAcc yahoo google) =
      List.countP (fun p : String × Acc => p.1 == normKey t.title) (buildAcc yahoo google) := by
    refine List.countP_congr ?_
    intro p hp
    simp only [Function.comp]
    show (normKey p.2.title == normKey t.title) = true ↔ (p.1 == normKey t.title) = true
    rw [(hwf.1 p hp).1]
  rw [hcong]
  have hmap : List.countP (fun p : String × Acc => p.1 == normKey t.title) (buildAcc yahoo google)
      = List.countP (fun x => x == normKey t.title) (keysOf (buildAcc yahoo google)) := by
    rw [keysOf, List.countP_map]
    rfl
  rw [hmap, ← List.count_eq_countP]
  refine List.count_eq_one_of_mem hwf.2 ?_
  exact (keysOf_buildAcc_mem yahoo google _).mpr ⟨hk, t, hmem, rfl⟩

/-- C1 witness: the amended statement at a concrete input. -/
theorem C1_witness :
    (⟨"yahoo", "Foo ", "", 1⟩ : Topic) ∈ [(⟨"yahoo", "Foo ", "", 1⟩ : Topic)] ++ [] ∧
    normKey "Foo " ≠ "" ∧
    (mergeAndRank [⟨"yahoo", "Foo ", "", 1⟩] [] 0).countP
      (fun u => normKey u.title == normKey "Foo ") = 1 :=
  ⟨by decide, by decide,
    C1_unique_key_in_merged [⟨"yahoo", "Foo ", "", 1⟩] [] ⟨"yahoo", "Foo ", "", 1⟩
      (by decide) (by decide)⟩

end NetaBako

namespace NetaBako

/-- C2: the list returned by `mergeAndRank` is sorted by the spec's total
order `specLT`: present (positive) ranks ascending before all absent
ranks, title ascending as the tie-break; in particular an absent-rank
entry never precedes a positive-rank entry. -/
theorem C2_output_sorted (yahoo google : List Topic) (topN : Int) :
    (mergeAndRank yahoo google topN).Pairwise specLT := by
  have hsort := sortMerged_pairwise (mergedTopics yahoo google)
  have hdist : (sortMerged (mergedTopics yahoo google)).Pairwise
      (fun a b => a.title ≠ b.title) :=
    ((sortMerged_perm _).pairwise_iff (fun h he => h he.symm)).mpr
      (mergedTopics_titles_distinct yahoo google)
  have hcomb := (hsort.and hdist).imp
    (fun {a b} h => by
      rcases h with ⟨hle, hne⟩
      rcases hb : topicLess a b with _ | _
      · unfold topicLE at hle
        rw [Bool.not_eq_true'] at hle
        exact absurd (topicLess_eq_of_not hb hle).2 hne
      · exact (topicLess_iff_specLT a b).mp hb)
  unfold mergeAndRank truncateTopN
  split_ifs with h
  · exact List.Pairwise.sublist (List.take_sublist _ _) hcomb
  · exact hcomb

/-- C3: each merged entry's rank is the minimum positive rank among the
contributing topics of its normalized-title group (the absent sentinel 0
when none is positive); on the spec's example A(3), A(1), B(2) the output
is A with rank 1 followed by B with rank 2. -/
theorem C3_rank_is_min_positive :
    (∀ (yahoo google : List Topic) (topN : Int) (u : Topic),
        u ∈ mergeAndRank yahoo google topN →
        u.rank = minPosRank
          (((yahoo ++ google).filter
            (fun t => normKey t.title = normKey u.title)).map Topic.rank)) ∧
    mergeAndRank [] [⟨"google", "A", "", 3⟩, ⟨"google", "A", "", 1⟩, ⟨"google", "B", "", 2⟩] 0
      = [⟨"mix", "A", "", 1⟩, ⟨"mix", "B", "", 2⟩] := by
  constructor
  · intro yahoo google topN u hu
    exact (mergedTopics_entry yahoo google u (mem_of_mem_mergeAndRank hu)).2
  · rfl

/-- C3 witness: the universal part applied to the example input. -/
theorem C3_witness : (⟨"mix", "A", "", 1⟩ : Topic).rank = 1 := by
  have h := C3_rank_is_min_positive.1 []
    [⟨"google", "A", "", 3⟩, ⟨"google", "A", "", 1⟩, ⟨"google", "B", "", 2⟩] 0
    ⟨"mix", "A", "", 1⟩ (by decide)
  rw [h]
  rfl

/-- C5 (counterexample): with a positive cap, membership is not
commutative. Both orders keep two tied rank-1 keys, the tie-break
compares the first-seen display titles, and `"B" < "a"` in byte order, so
swapping the argument lists changes which key survives `topN = 1`. -/
theorem C5_counterexample :
    (∃ u ∈ mergeAndRank [⟨"yahoo", "b", "", 1⟩, ⟨"yahoo", "a", "", 1⟩]
        [⟨"google", "B", "", 1⟩, ⟨"google", "a", "", 1⟩] 1, normKey u.title = "a") ∧
    ¬ (∃ u ∈ mergeAndRank [⟨"google", "B", "", 1⟩, ⟨"google", "a", "", 1⟩]
        [⟨"yahoo", "b", "", 1⟩, ⟨"yahoo", "a", "", 1⟩] 1, normKey u.title = "a") := by
  decide

/-- C5 (amended): without truncation (`topN = 0`) the merged output of
`mergeAndRank A B` and of `mergeAndRank B A` contains exactly the same
set of normalized titles. -/
theorem C5_membership_commutative (A B : List Topic) (k : String) :
    (∃ u ∈ mergeAndRank A B 0, normKey u.title = k) ↔
      (∃ u ∈ mergeAndRank B A 0, normKey u.title = k) := by
  rw [mergeAndRank_key_mem, mergeAndRank_key_mem]
  constructor
  · rintro ⟨hne, t, ht, hkt⟩
    have : t ∈ B ++ A := by
      rcases List.mem_append.mp ht with h | h
      · exact List.mem_append.mpr (Or.inr h)
      · exact List.mem_append.mpr (Or.inl h)
    exact ⟨hne, t, this, hkt⟩
  · rintro ⟨hne, t, ht, hkt⟩
    have : t ∈ A ++ B := by
      rcases List.mem_append.mp ht with h | h
      · exact List.mem_append.mpr (Or.inr h)
      · exact List.mem_append.mpr (Or.inl h)
    exact ⟨hne, t, this, hkt⟩

/-- C9: `mergeAndRank` is deterministic in spite of the unspecified map
iteration order and the unstable sort: pre-sort entries have pairwise
distinct display titles (distinct keys store distinct titles), so any
sorted arrangement of any iteration order of the accumulator, truncated,
is the one output of `mergeAndRank`. -/
theorem C9_deterministic (yahoo google : List Topic) (topN : Int) (l : List Topic)
    (hp : l.Perm (mergedTopics yahoo google))
    (hs : l.Pairwise (fun a b => topicLE a b = true)) :
    truncateTopN l topN = mergeAndRank yahoo google topN := by
  have : l = sortMerged (mergedTopics yahoo google) :=
    sorted_perm_eq_sortMerged hp hs (mergedTopics_titles_distinct yahoo google)
  rw [this, mergeAndRank]

/-- C9 witness: a sorted rearrangement of a concrete merged list yields
the `mergeAndRank` output. -/
theorem C9_witness :
    ([⟨"mix", "b", "", 1⟩, ⟨"mix", "a", "", 2⟩] : List Topic).Perm
      (mergedTopics [⟨"yahoo", "b", "", 1⟩] [⟨"google", "a", "", 2⟩]) ∧
    ([⟨"mix", "b", "", 1⟩, ⟨"mix", "a", "", 2⟩] : List Topic).Pairwise
      (fun a b => topicLE a b = true) ∧
    truncateTopN [⟨"mix", "b", "", 1⟩, ⟨"mix", "a", "", 2⟩] 0
      = mergeAndRank [⟨"yahoo", "b", "", 1⟩] [⟨"google", "a", "", 2⟩] 0 :=
  ⟨by decide, by decide,
    C9_deterministic [⟨"yahoo", "b", "", 1⟩] [⟨"google", "a", "", 2⟩] 0
      [⟨"mix", "b", "", 1⟩, ⟨"mix", "a", "", 2⟩] (by decide) (by decide)⟩

end NetaBako

namespace NetaBako

/-! ## Score inertness -/

theorem applyAccW_eq (w3 w2 : Nat) (a : Acc) (t : Topic) : applyAccW w3 w2 a t =
    { title := a.title,
      note := if t.note ≠ "" then a.note ++ [t.note] else a.note,
      score := a.score + (if t.source = "yahoo" then w3 else w2),
      best := if 0 < t.rank ∧ (a.best.rank = 0 ∨ t.rank < a.best.rank) then t else a.best } := by
  unfold applyAccW
  dsimp only
  split_ifs <;> rfl

theorem stripS_applyAcc (a : Acc) (t : Topic) :
    stripS (applyAcc a t) = stripApply (stripS a) t := by
  rw [applyAcc_eq]
  unfold stripS stripApply
  split_ifs <;> rfl

theorem stripS_applyAccW (w3 w2 : Nat) (a : Acc) (t : Topic) :
    stripS (applyAccW w3 w2 a t) = stripApply (stripS a) t := by
  rw [applyAccW_eq]
  unfold stripS stripApply
  split_ifs <;> rfl

theorem hasKey_congr (l l' : List (String × Acc)) (k : String)
    (h : keysOf l = keysOf l') : hasKey l k = hasKey l' k := by
  cases hb : hasKey l' k
  · cases hb' : hasKey l k
    · rfl
    · have := (hasKey_iff l k).mp hb'
      rw [h] at this
      rw [(hasKey_iff l' k).mpr this] at hb
      exact hb
  · have := (hasKey_iff l' k).mp hb
    rw [← h] at this
    exact (hasKey_iff l k).mpr this

theorem keysOf_of_stripP (l l' : List (String × Acc))
    (h : l.map stripP = l'.map stripP) : keysOf l = keysOf l' := by
  have : (l.map stripP).map Prod.fst = (l'.map stripP).map Prod.fst := by rw [h]
  simpa [keysOf, List.map_map, Function.comp, stripP] using this

theorem stripP_updateKey (l : List (String × Acc)) (k : String) (t : Topic) :
    (l.map (fun p => if p.1 = k then (p.1, applyAcc p.2 t) else p)).map stripP =
      (l.map stripP).map (fun q => if q.1 = k then (q.1, stripApply q.2 t) else q) := by
  induction l with
  | nil => rfl
  | cons p rest ih =>
    simp only [List.map_cons, ih]
    congr 1
    by_cases h : p.1 = k
    · simp [h, stripP, stripS_applyAcc]
    · simp [h, stripP]

theorem stripP_updateKeyW (w3 w2 : Nat) (l : List (String × Acc)) (k : String) (t : Topic) :
    (l.map (fun p => if p.1 = k then (p.1, applyAccW w3 w2 p.2 t) else p)).map stripP =
      (l.map stripP).map (fun q => if q.1 = k then (q.1, stripApply q.2 t) else q) := by
  induction l with
  | nil => rfl
  | cons p rest ih =>
    simp only [List.map_cons, ih]
    congr 1
    by_cases h : p.1 = k
    · simp [h, stripP, stripS_applyAccW]
    · simp [h, stripP]

theorem stripP_addTopic (w3 w2 : Nat) (l l' : List (String × Acc)) (t : Topic)
    (h : l.map stripP = l'.map stripP) :
    (addTopicW w3 w2 l t).map stripP = (addTopic l' t).map stripP := by
  have hkeys : keysOf l = keysOf l' := keysOf_of_stripP l l' h
  unfold addTopicW addTopic updateKey
  dsimp only
  by_cases h1 : normKey t.title = ""
  · rw [if_pos h1, if_pos h1]
    exact h
  · rw [if_neg h1, if_neg h1, hasKey_congr l l' _ hkeys]
    by_cases h2 : hasKey l' (normKey t.title) = true
    · rw [if_pos h2, if_pos h2]
      rw [stripP_updateKeyW, stripP_updateKey, h]
    · rw [if_neg (by simp [h2]), if_neg (by simp [h2])]
      rw [List.map_append, List.map_append, h]
      congr 1
      simp [stripP, stripS_applyAccW, stripS_applyAcc]

theorem stripP_foldl (w3 w2 : Nat) (ts : List Topic) (l l' : List (String × Acc))
    (h : l.map stripP = l'.map stripP) :
    (ts.foldl (addTopicW w3 w2) l).map stripP = (ts.foldl addTopic l').map stripP := by
  induction ts generalizing l l' with
  | nil => exact h
  | cons t rest ih => exact ih _ _ (stripP_addTopic w3 w2 l l' t h)

theorem emitMerged_of_stripP (l l' : List (String × Acc))
    (h : l.map stripP = l'.map stripP) : emitMerged l = emitMerged l' := by
  have hl : emitMerged l = (l.map stripP).map
      (fun q => ⟨"mix", q.2.1, joinSep " / " q.2.2.1, q.2.2.2.rank⟩) := by
    unfold emitMerged
    rw [List.map_map]
    rfl
  have hl' : emitMerged l' = (l'.map stripP).map
      (fun q => ⟨"mix", q.2.1, joinSep " / " q.2.2.1, q.2.2.2.rank⟩) := by
    unfold emitMerged
    rw [List.map_map]
    rfl
  rw [hl, hl', h]

/-- C4: the accumulated score never reaches the emitted entries or the
sort: replacing the source weights 3/2 by any weights leaves the output
of `mergeAndRank` unchanged, so only rank and title determine it. -/
theorem C4_score_inert (w3 w2 : Nat) (yahoo google : List Topic) (topN : Int) :
    mergeAndRankW w3 w2 yahoo google topN = mergeAndRank yahoo google topN := by
  unfold mergeAndRankW mergeAndRank mergedTopics buildAcc
  congr 1
  congr 1
  refine emitMerged_of_stripP _ _ ?_
  exact stripP_foldl w3 w2 google _ _ (stripP_foldl w3 w2 yahoo [] [] rfl)

end NetaBako

namespace NetaBako

/-! ## Adapter A: item loop and fallback -/

theorem collectGoogle_unbounded (ft : String → String) (mx : Int) (hmx : ¬ 0 < mx) :
    ∀ (items : List Item) (i : Nat) (acc : List Topic),
      collectGoogle ft mx items i acc = acc ++ googleSurvivorsFrom ft i items := by
  intro items
  induction items with
  | nil =>
    intro i acc
    simp [collectGoogle, googleSurvivorsFrom, List.enumFrom]
  | cons it rest ih =>
    intro i acc
    by_cases ht : strTrim it.title = ""
    · rw [collectGoogle, if_pos ht, ih (i + 1) acc]
      simp [googleSurvivorsFrom, List.enumFrom, List.filter_cons, ht]
    · rw [collectGoogle, if_neg ht, if_neg (by simp [hmx]),
        ih (i + 1) (acc ++ ([⟨"google", strTrim it.title, ft it.description, i + 1⟩] : List Topic))]
      simp [googleSurvivorsFrom, List.enumFrom, List.filter_cons, ht]

theorem collectGoogle_bounded (ft : String → String) (mx : Int) (hmx : 0 < mx) :
    ∀ (items : List Item) (i : Nat) (acc : List Topic), acc.length < mx.toNat →
      collectGoogle ft mx items i acc =
        acc ++ (googleSurvivorsFrom ft i items).take (mx.toNat - acc.length) := by
  intro items
  induction items with
  | nil =>
    intro i acc _
    simp [collectGoogle, googleSurvivorsFrom, List.enumFrom]
  | cons it rest ih =>
    intro i acc hlen
    by_cases ht : strTrim it.title = ""
    · rw [collectGoogle, if_pos ht, ih (i + 1) acc hlen]
      simp [googleSurvivorsFrom, List.enumFrom, List.filter_cons, ht]
    · rw [collectGoogle, if_neg ht]
      have hsurv : googleSurvivorsFrom ft i (it :: rest) =
          ⟨"google", strTrim it.title, ft it.description, i + 1⟩ ::
            googleSurvivorsFrom ft (i + 1) rest := by
        simp [googleSurvivorsFrom, List.enumFrom, List.filter_cons, ht]
      by_cases hbrk : (mx : Int) ≤
          (((acc ++ ([⟨"google", strTrim it.title, ft it.description, i + 1⟩] : List Topic)).length : Nat) : Int)
      · rw [if_pos ⟨hmx, hbrk⟩, hsurv]
        have h1 : mx.toNat - acc.length = 1 := by
          simp only [List.length_append, List.length_cons, List.length_nil] at hbrk
          omega
        rw [h1]
        simp
      · rw [if_neg (by
          intro hc
          exact hbrk hc.2)]
        have hlen' : (acc ++ ([⟨"google", strTrim it.title, ft it.description, i + 1⟩] : List Topic)).length
            < mx.toNat := by
          simp only [List.length_append, List.length_cons, List.length_nil] at hbrk ⊢
          omega
        rw [ih (i + 1) _ hlen', hsurv]
        have h2 : mx.toNat - acc.length =
            (mx.toNat -
              (acc ++ ([⟨"google", strTrim it.title, ft it.description, i + 1⟩] : List Topic)).length) + 1 := by
          simp only [List.length_append, List.length_cons, List.length_nil] at hbrk ⊢
          omega
        rw [h2, List.take_succ_cons]
        simp

end NetaBako

namespace NetaBako

/-- C10: the item loop's ranks come from the raw item index — each kept
topic has rank `i + 1` for its position among all parsed items, including
items skipped for an empty trimmed title, so an early empty-title item
leaves a gap (ranks `[2, 3]`, not `1..n`), while the `max` cap counts
survivors only (cap 1 still returns the rank-2 survivor). -/
theorem C10_google_rank_gaps :
    (∀ (ft : String → String) (mx : Int) (items : List Item),
        collectGoogle ft mx items 0 [] =
          if 0 < mx then (googleSurvivorsFrom ft 0 items).take mx.toNat
          else googleSurvivorsFrom ft 0 items) ∧
    ((collectGoogle (fun _ => "") 0 [⟨" ", ""⟩, ⟨"a", ""⟩, ⟨"b", ""⟩] 0 []).map Topic.rank
        = [2, 3]) ∧
    ((collectGoogle (fun _ => "") 1 [⟨" ", ""⟩, ⟨"a", ""⟩, ⟨"b", ""⟩] 0 []).map Topic.rank
        = [2]) ∧
    fetchGoogleTrends (fun _ => "") "JP" 0
        (.httpOk "text/xml" "" (.ok [⟨" ", ""⟩, ⟨"a", ""⟩, ⟨"b", ""⟩])) (.reqErr "x")
      = .ok [⟨"google", "a", "", 2⟩, ⟨"google", "b", "", 3⟩] := by
  refine ⟨?_, rfl, rfl, rfl⟩
  intro ft mx items
  by_cases hmx : 0 < mx
  · rw [if_pos hmx, collectGoogle_bounded ft mx hmx items 0 [] (by simpa using hmx)]
    simp
  · rw [if_neg hmx, collectGoogle_unbounded ft mx hmx items 0 []]
    rfl

/-- C6: `fetchGoogleTrends` tries the primary URL and then the secondary
URL, stopping at the first success; an attempt succeeds exactly when the
exchange succeeded, the content type indicates XML, the body decoded, and
at least one item survived filtering; the whole call reports an error
exactly when both attempts fail, and then it is the second (most recent)
attempt's error. -/
theorem C6_google_fallback (ft : String → String) (geo : String) (mx : Int) (r1 r2 : GResp) :
    (∀ ts, googleAttempt ft mx (googleURL1 geo) r1 = .ok ts →
        fetchGoogleTrends ft geo mx r1 r2 = .ok ts) ∧
    (∀ e, googleAttempt ft mx (googleURL1 geo) r1 = .error e →
        fetchGoogleTrends ft geo mx r1 r2 = googleAttempt ft mx (googleURL2 geo) r2) ∧
    ((∃ e, fetchGoogleTrends ft geo mx r1 r2 = .error e) ↔
      ((∃ e, googleAttempt ft mx (googleURL1 geo) r1 = .error e) ∧
       (∃ e, googleAttempt ft mx (googleURL2 geo) r2 = .error e))) ∧
    (∀ e1 e2, googleAttempt ft mx (googleURL1 geo) r1 = .error e1 →
        googleAttempt ft mx (googleURL2 geo) r2 = .error e2 →
        fetchGoogleTrends ft geo mx r1 r2 = .error e2) ∧
    (∀ (url : String) (r : GResp),
        (∃ ts, googleAttempt ft mx url r = .ok ts) ↔
        (∃ ct sn items, r = .httpOk ct sn (.ok items) ∧ strContains ct "xml" = true ∧
          collectGoogle ft mx items 0 [] ≠ [])) := by
  refine ⟨?_, ?_, ?_, ?_, ?_⟩
  · intro ts h
    unfold fetchGoogleTrends
    rw [h]
  · intro e h
    unfold fetchGoogleTrends
    rw [h]
    rcases googleAttempt ft mx (googleURL2 geo) r2 with e2 | ts2 <;> rfl
  · unfold fetchGoogleTrends
    rcases h1 : googleAttempt ft mx (googleURL1 geo) r1 with e1 | ts1
    · rcases h2 : googleAttempt ft mx (googleURL2 geo) r2 with e2 | ts2
      · exact ⟨fun _ => ⟨⟨e1, rfl⟩, ⟨e2, rfl⟩⟩, fun _ => ⟨e2, rfl⟩⟩
      · constructor
        · rintro ⟨e, he⟩
          exact absurd he (by simp)
        · rintro ⟨_, ⟨e2', he2⟩⟩
          exact absurd he2 (by simp)
    · constructor
      · rintro ⟨e, he⟩
        exact absurd he (by simp)
      · rintro ⟨⟨e1', he1⟩, _⟩
        exact absurd he1 (by simp)
  · intro e1 e2 h1 h2
    unfold fetchGoogleTrends
    rw [h1, h2]
  · intro url r
    constructor
    · rintro ⟨ts, hts⟩
      rcases r with msg | ⟨ct, sn, dec⟩
      · exact absurd hts (by simp [googleAttempt])
      · simp only [googleAttempt] at hts
        by_cases hct : strContains ct "xml" = true
        · rw [hct] at hts
          simp only [Bool.not_true, Bool.false_eq_true, if_false] at hts
          rcases dec with msg | items
          · exact absurd hts (by simp)
          · dsimp only at hts
            refine ⟨ct, sn, items, rfl, hct, ?_⟩
            by_cases hz : 0 < (collectGoogle ft mx items 0 []).length
            · intro hc
              rw [hc] at hz
              simp at hz
            · rw [if_neg hz] at hts
              exact absurd hts (by simp)
        · rw [Bool.not_eq_true] at hct
          rw [hct] at hts
          exact absurd hts (by simp)
    · rintro ⟨ct, sn, items, rfl, hct, hne⟩
      refine ⟨collectGoogle ft mx items 0 [], ?_⟩
      simp only [googleAttempt]
      rw [hct]
      simp only [Bool.not_true, Bool.false_eq_true, if_false]
      rw [if_pos (by
        rcases hc : collectGoogle ft mx items 0 [] with _ | ⟨t, ts'⟩
        · exact absurd hc hne
        · simp)]

/-- C6 witness: both attempts fail, the reported error is the second
attempt's. -/
theorem C6_witness :
    fetchGoogleTrends (fun _ => "") "JP" 0 (.reqErr "a") (.reqErr "b")
      = .error "google trends request: b" :=
  (C6_google_fallback (fun _ => "") "JP" 0 (.reqErr "a") (.reqErr "b")).2.2.2.1
    "google trends request: a" "google trends request: b" rfl rfl

end NetaBako

namespace NetaBako

/-! ## Adapter B: first pass and second pass -/

theorem yahooCollect_eq : ∀ (anchors : List Anchor) (i : Nat) (out : List Topic),
    yahooCollect anchors i out = out ++ yahooKeptFrom i anchors := by
  intro anchors
  induction anchors with
  | nil =>
    intro i out
    simp [yahooCollect, yahooKeptFrom, List.enumFrom]
  | cons a rest ih =>
    intro i out
    by_cases hc : strTrim a.text = "" ∨ ¬ strContains a.href "/realtime/search" = true
    · rw [yahooCollect, if_pos (by simpa using hc), ih (i + 1) out]
      have hpred : (! (strTrim a.text == "") && strContains a.href "/realtime/search") = false := by
        rcases hc with h | h
        · simp [h]
        · rw [Bool.not_eq_true] at h
          simp [h]
      simp [yahooKeptFrom, List.enumFrom, List.filter_cons, hpred]
    · push_neg at hc
      rw [yahooCollect, if_neg (by simpa using hc),
        ih (i + 1) (out ++ ([⟨"yahoo", strTrim a.text, "", i + 1⟩] : List Topic))]
      have hpred : (! (strTrim a.text == "") && strContains a.href "/realtime/search") = true := by
        simp [hc.1, hc.2]
      simp [yahooKeptFrom, List.enumFrom, List.filter_cons, hpred]

/-- C7: every topic kept by the first pass of `fetchYahooRealtime` has
rank one plus its raw DOM-walk position among all selector-matched
anchors, counted before the href/empty-text filter; a filtered-out
anchor still consumes its rank number, so kept ranks can have gaps
(a leading nav link yields ranks `[2, 3]`). -/
theorem C7_yahoo_rank_raw_position :
    (∀ anchors : List Anchor, yahooCollect anchors 0 [] = yahooKeptFrom 0 anchors) ∧
    fetchYahooRealtime
        (.ok [⟨"/nav", "Home"⟩, ⟨"/realtime/search?p=x", "x"⟩, ⟨"/realtime/search?p=y", "y"⟩]) 0
      = .ok [⟨"yahoo", "x", "", 2⟩, ⟨"yahoo", "y", "", 3⟩] := by
  refine ⟨?_, rfl⟩
  intro anchors
  rw [yahooCollect_eq anchors 0 []]
  rfl

end NetaBako

namespace NetaBako

theorem dedupTopics_unbounded (mx : Int) (hmx : ¬ 0 < mx) :
    ∀ (l : List Topic) (seen : List String) (out : List Topic),
      dedupTopics mx l seen out = out ++ specDedup l seen := by
  intro l
  induction l with
  | nil =>
    intro seen out
    simp [dedupTopics, specDedup]
  | cons t rest ih =>
    intro seen out
    by_cases hc : normKey t.title = "" ∨ normKey t.title ∈ seen
    · rw [dedupTopics, if_pos hc, ih seen out, specDedup, if_pos hc]
    · rw [dedupTopics, if_neg hc, if_neg (by simp [hmx]),
        ih (normKey t.title :: seen) (out ++ [t]), specDedup, if_neg hc]
      simp

theorem dedupTopics_bounded (mx : Int) (hmx : 0 < mx) :
    ∀ (l : List Topic) (seen : List String) (out : List Topic), out.length < mx.toNat →
      dedupTopics mx l seen out = out ++ (specDedup l seen).take (mx.toNat - out.length) := by
  intro l
  induction l with
  | nil =>
    intro seen out _
    simp [dedupTopics, specDedup]
  | cons t rest ih =>
    intro seen out hlen
    by_cases hc : normKey t.title = "" ∨ normKey t.title ∈ seen
    · rw [dedupTopics, if_pos hc, ih seen out hlen, specDedup, if_pos hc]
    · rw [dedupTopics, if_neg hc, specDedup, if_neg hc]
      by_cases hbrk : (mx : Int) ≤ ((out ++ [t]).length : Nat)
      · rw [if_pos ⟨hmx, hbrk⟩]
        have h1 : mx.toNat - out.length = 1 := by
          simp only [List.length_append, List.length_cons, List.length_nil] at hbrk
          omega
        rw [h1]
        simp
      · rw [if_neg (by
          intro hcon
          exact hbrk hcon.2)]
        have hlen' : (out ++ [t]).length < mx.toNat := by
          simp only [List.length_append, List.length_cons, List.length_nil] at hbrk ⊢
          omega
        rw [ih (normKey t.title :: seen) (out ++ [t]) hlen']
        have h2 : mx.toNat - out.length = (mx.toNat - (out ++ [t]).length) + 1 := by
          simp only [List.length_append, List.length_cons, List.length_nil] at hbrk ⊢
          omega
        rw [h2, List.take_succ_cons]
        simp

theorem specDedup_sublist : ∀ (l : List Topic) (seen : List String),
    (specDedup l seen).Sublist l := by
  intro l
  induction l with
  | nil => intro seen; simp [specDedup]
  | cons t rest ih =>
    intro seen
    rw [specDedup]
    split_ifs with hc
    · exact (ih seen).cons t
    · exact (ih (normKey t.title :: seen)).cons₂ t

theorem specDedup_mem_spec : ∀ (l : List Topic) (seen : List String) (t : Topic),
    t ∈ specDedup l seen →
      normKey t.title ≠ "" ∧ normKey t.title ∉ seen ∧
      ∃ pre post, l = pre ++ t :: post ∧ ∀ u ∈ pre, normKey u.title ≠ normKey t.title := by
  intro l
  induction l with
  | nil => intro seen t ht; simp [specDedup] at ht
  | cons t0 rest ih =>
    intro seen t ht
    rw [specDedup] at ht
    split_ifs at ht with hc
    · rcases ih seen t ht with ⟨hne, hnotin, pre, post, heq, hpre⟩
      refine ⟨hne, hnotin, t0 :: pre, post, by rw [heq]; rfl, ?_⟩
      intro u hu
      rcases List.mem_cons.mp hu with rfl | hu
      · intro hkey
        rcases hc with h | h
        · exact hne (hkey ▸ h)
        · exact hnotin (hkey ▸ h)
      · exact hpre u hu
    · push_neg at hc
      rcases List.mem_cons.mp ht with rfl | ht
      · exact ⟨hc.1, hc.2, [], rest, rfl, by simp⟩
      · rcases ih (normKey t0.title :: seen) t ht with ⟨hne, hnotin, pre, post, heq, hpre⟩
        rw [List.mem_cons] at hnotin
        push_neg at hnotin
        refine ⟨hne, hnotin.2, t0 :: pre, post, by rw [heq]; rfl, ?_⟩
        intro u hu
        rcases List.mem_cons.mp hu with rfl | hu
        · exact fun hkey => hnotin.1 hkey.symm
        · exact hpre u hu

theorem specDedup_keys_nodup : ∀ (l : List Topic) (seen : List String),
    ((specDedup l seen).map (fun t => normKey t.title)).Nodup := by
  intro l
  induction l with
  | nil => intro seen; simp [specDedup]
  | cons t0 rest ih =>
    intro seen
    rw [specDedup]
    split_ifs with hc
    · exact ih seen
    · rw [List.map_cons, List.nodup_cons]
      refine ⟨?_, ih (normKey t0.title :: seen)⟩
      intro hmem
      rcases List.mem_map.mp hmem with ⟨u, hu, hku⟩
      have := (specDedup_mem_spec rest (normKey t0.title :: seen) u hu).2.1
      exact this (hku ▸ List.mem_cons_self _ _)

end NetaBako

namespace NetaBako

/-- C8: the second pass of `fetchYahooRealtime` equals spec-style
first-occurrence deduplication by normalized key truncated to `max`
(when `max > 0`); the deduplicated list is a sublist of its input (so
encounter order and provisional ranks are preserved), its keys are
pairwise distinct, and each kept topic is the first occurrence of its
key; on 10 matching anchors with 2 duplicate titles and `max = 5`,
exactly `min 5 8 = 5` unique entries are returned with their raw ranks. -/
theorem C8_dedup_second_pass :
    (∀ (mx : Int) (ts : List Topic),
        dedupTopics mx ts [] [] =
          if 0 < mx then (specDedup ts []).take mx.toNat else specDedup ts []) ∧
    (∀ ts : List Topic, (specDedup ts []).Sublist ts) ∧
    (∀ ts : List Topic, ((specDedup ts []).map (fun t => normKey t.title)).Nodup) ∧
    (∀ (ts : List Topic) (t : Topic), t ∈ specDedup ts [] →
        ∃ pre post, ts = pre ++ t :: post ∧ ∀ u ∈ pre, normKey u.title ≠ normKey t.title) ∧
    (fetchYahooRealtime (.ok [
        ⟨"/realtime/search?p=1", "t1"⟩, ⟨"/realtime/search?p=2", "t2"⟩,
        ⟨"/realtime/search?p=3", "T1"⟩, ⟨"/realtime/search?p=4", "t3"⟩,
        ⟨"/realtime/search?p=5", "t4"⟩, ⟨"/realtime/search?p=6", "T2"⟩,
        ⟨"/realtime/search?p=7", "t5"⟩, ⟨"/realtime/search?p=8", "t6"⟩,
        ⟨"/realtime/search?p=9", "t7"⟩, ⟨"/realtime/search?p=10", "t8"⟩]) 5
      = .ok [⟨"yahoo", "t1", "", 1⟩, ⟨"yahoo", "t2", "", 2⟩, ⟨"yahoo", "t3", "", 4⟩,
             ⟨"yahoo", "t4", "", 5⟩, ⟨"yahoo", "t5", "", 7⟩]) ∧
    (5 = min 5 8) := by
  refine ⟨?_, fun ts => specDedup_sublist ts [], ?_, ?_, rfl, rfl⟩
  · intro mx ts
    by_cases hmx : 0 < mx
    · rw [if_pos hmx, dedupTopics_bounded mx hmx ts [] [] (by simpa using hmx)]
      simp
    · rw [if_neg hmx, dedupTopics_unbounded mx hmx ts [] []]
      rfl
  · intro ts
    exact specDedup_keys_nodup ts []
  · intro ts t ht
    exact (specDedup_mem_spec ts [] t ht).2.2

/-- C8 witness: the first-occurrence clause at a concrete input. -/
theorem C8_witness :
    ∃ pre post, ([⟨"yahoo", "x", "", 1⟩, ⟨"yahoo", "X ", "", 2⟩, ⟨"yahoo", "y", "", 3⟩] : List Topic)
        = pre ++ (⟨"yahoo", "y", "", 3⟩ : Topic) :: post ∧
      ∀ u ∈ pre, normKey u.title ≠ normKey (⟨"yahoo", "y", "", 3⟩ : Topic).title :=
  C8_dedup_second_pass.2.2.2.1
    [⟨"yahoo", "x", "", 1⟩, ⟨"yahoo", "X ", "", 2⟩, ⟨"yahoo", "y", "", 3⟩]
    ⟨"yahoo", "y", "", 3⟩ (by decide)

end NetaBako
